import Mathlib

/-!
Verification of the Banker's-algorithm resource ledger
(`BankersAlgorithm.cpp` / `BankersAlgorithm.h`).

The C++ class stores fixed-length `std::vector<int>` rows; every loop runs
over indices `0 .. num_resources-1` (resp. `0 .. num_processes-1`).  We embed
a length-`R` integer vector as `Fin R → Int` and a `num_processes × R`
matrix as `Fin P → Fin R → Int`; the type parameters `R` and `P` play the
roles of the `num_resources` and `num_processes` fields.
-/

/-- State of the `BankersAlgorithm` class: the five vector/matrix fields.
`R` is `num_resources`, `P` is `num_processes`. -/
structure BankersAlgorithm (R P : Nat) where
  total_resources : Fin R → Int
  available : Fin R → Int
  maximum : Fin P → Fin R → Int
  allocation : Fin P → Fin R → Int
  need : Fin P → Fin R → Int

/-- Constructor `BankersAlgorithm(resources, processes)`: every entry is
initialised to `0`. -/
def mkBankersAlgorithm (R P : Nat) : BankersAlgorithm R P :=
  { total_resources := fun _ => 0
    available := fun _ => 0
    maximum := fun _ _ => 0
    allocation := fun _ _ => 0
    need := fun _ _ => 0 }

/-- `setTotalResources(total)`: `total_resources = total; available = total`. -/
def setTotalResources {R P : Nat} (s : BankersAlgorithm R P)
    (total : Fin R → Int) : BankersAlgorithm R P :=
  { s with total_resources := total, available := total }

/-- `setMaximum(process, max_demand)`: `maximum[process] = max_demand`, then
`need[process][i] = maximum[process][i] - allocation[process][i]` for every
resource index `i`. -/
def setMaximum {R P : Nat} (s : BankersAlgorithm R P) (process : Fin P)
    (max_demand : Fin R → Int) : BankersAlgorithm R P :=
  { s with
    maximum := Function.update s.maximum process max_demand
    need := Function.update s.need process
      (fun i => max_demand i - s.allocation process i) }

/-- The `can_finish` inner loop of `isSafe`: `need[p][r] ≤ work[r]` for every
resource index `r`. -/
def vecLe {R : Nat} (a b : Fin R → Int) : Bool :=
  decide (∀ r, a r ≤ b r)

/-- Pointwise sum of two resource vectors (`work[r] += allocation[p][r]`). -/
def addV {R : Nat} (a b : Fin R → Int) : Fin R → Int :=
  fun r => a r + b r

/-- One iteration of the `for (p = 0; p < num_processes; ++p)` scan inside
`isSafe`, over the remaining process indices `ps`, threading the mutable
locals `work` and `finish` and returning `(work, finish, progress)` where
`progress` records whether some process was newly marked finished. -/
def scanPass {R P : Nat} (nd al : Fin P → Fin R → Int) :
    List (Fin P) → (Fin R → Int) → (Fin P → Bool) →
    (Fin R → Int) × (Fin P → Bool) × Bool
  | [], work, finish => (work, finish, false)
  | p :: ps, work, finish =>
    if finish p = false ∧ vecLe (nd p) work = true then
      let out := scanPass nd al ps (addV work (al p)) (Function.update finish p true)
      (out.1, out.2.1, true)
    else
      scanPass nd al ps work finish

/-- Number of processes not yet marked finished; the termination measure of
the `while (progress)` loop of `isSafe`. -/
def countFalse {P : Nat} (finish : Fin P → Bool) : Nat :=
  (Finset.univ.filter (fun p => finish p = false)).card

theorem scanPass_finish_mono {R P : Nat} (nd al : Fin P → Fin R → Int)
    (ps : List (Fin P)) (work : Fin R → Int) (finish : Fin P → Bool)
    (q : Fin P) (hq : finish q = true) :
    (scanPass nd al ps work finish).2.1 q = true := by
  induction ps generalizing work finish with
  | nil => exact hq
  | cons p ps ih =>
    simp only [scanPass]
    by_cases hcond : finish p = false ∧ vecLe (nd p) work = true
    · rw [if_pos hcond]
      show (scanPass nd al ps (addV work (al p)) (Function.update finish p true)).2.1 q = true
      apply ih
      rcases eq_or_ne q p with h | h
      · subst h; simp [Function.update_same]
      · rw [Function.update_noteq h]; exact hq
    · rw [if_neg hcond]
      exact ih work finish hq

theorem scanPass_prog_mark {R P : Nat} (nd al : Fin P → Fin R → Int)
    (ps : List (Fin P)) (work : Fin R → Int) (finish : Fin P → Bool)
    (h : (scanPass nd al ps work finish).2.2 = true) :
    ∃ q, finish q = false ∧ (scanPass nd al ps work finish).2.1 q = true := by
  induction ps generalizing work finish with
  | nil => simp [scanPass] at h
  | cons p ps ih =>
    simp only [scanPass] at h ⊢
    by_cases hcond : finish p = false ∧ vecLe (nd p) work = true
    · rw [if_pos hcond]
      refine ⟨p, hcond.1, ?_⟩
      show (scanPass nd al ps (addV work (al p)) (Function.update finish p true)).2.1 p = true
      apply scanPass_finish_mono
      simp [Function.update_same]
    · rw [if_neg hcond] at h ⊢
      obtain ⟨q, hq1, hq2⟩ := ih work finish h
      exact ⟨q, hq1, hq2⟩

theorem countFalse_lt {P : Nat} (f g : Fin P → Bool)
    (hmono : ∀ q, f q = true → g q = true)
    (q0 : Fin P) (h0 : f q0 = false) (h1 : g q0 = true) :
    countFalse g < countFalse f := by
  apply Finset.card_lt_card
  constructor
  · intro q hq
    simp only [Finset.mem_filter, Finset.mem_univ, true_and] at hq ⊢
    cases hfq : f q
    · rfl
    · rw [hmono q hfq] at hq
      exact Bool.noConfusion hq
  · intro hsub
    have := hsub (a := q0) (by simp [Finset.mem_filter, h0])
    simp only [Finset.mem_filter, Finset.mem_univ, true_and] at this
    rw [h1] at this
    exact Bool.noConfusion this

theorem scanPass_countFalse_lt {R P : Nat} (nd al : Fin P → Fin R → Int)
    (ps : List (Fin P)) (work : Fin R → Int) (finish : Fin P → Bool)
    (h : (scanPass nd al ps work finish).2.2 = true) :
    countFalse (scanPass nd al ps work finish).2.1 < countFalse finish := by
  obtain ⟨q, hq1, hq2⟩ := scanPass_prog_mark nd al ps work finish h
  exact countFalse_lt finish _ (scanPass_finish_mono nd al ps work finish) q hq1 hq2

/-- The `while (progress)` loop of `isSafe`: run one full scan pass; if it made
progress, loop again; otherwise return `std::all_of(finish, ...)`. -/
def safeLoop {R P : Nat} (nd al : Fin P → Fin R → Int)
    (work : Fin R → Int) (finish : Fin P → Bool) : Bool :=
  if h : (scanPass nd al (List.finRange P) work finish).2.2 = true then
    safeLoop nd al (scanPass nd al (List.finRange P) work finish).1
      (scanPass nd al (List.finRange P) work finish).2.1
  else
    decide (∀ p, (scanPass nd al (List.finRange P) work finish).2.1 p = true)
termination_by countFalse finish
decreasing_by
  exact scanPass_countFalse_lt nd al (List.finRange P) work finish h

/-- `isSafe()`: `work = available`, `finish` all `false`, then the scan loop. -/
def isSafe {R P : Nat} (s : BankersAlgorithm R P) : Bool :=
  safeLoop s.need s.allocation s.available (fun _ => false)

/-- Fuel-indexed version of `safeLoop`, used to evaluate `isSafe` on concrete
states (the well-founded `safeLoop` does not reduce definitionally). -/
def safeLoopFuel {R P : Nat} (nd al : Fin P → Fin R → Int) :
    Nat → (Fin R → Int) → (Fin P → Bool) → Bool
  | 0, _, finish => decide (∀ p, finish p = true)
  | fuel + 1, work, finish =>
    if (scanPass nd al (List.finRange P) work finish).2.2 = true then
      safeLoopFuel nd al fuel (scanPass nd al (List.finRange P) work finish).1
        (scanPass nd al (List.finRange P) work finish).2.1
    else
      decide (∀ p, (scanPass nd al (List.finRange P) work finish).2.1 p = true)

theorem safeLoop_eq_fuel {R P : Nat} (nd al : Fin P → Fin R → Int) :
    ∀ (fuel : Nat) (work : Fin R → Int) (finish : Fin P → Bool),
    countFalse finish < fuel →
    safeLoop nd al work finish = safeLoopFuel nd al fuel work finish := by
  intro fuel
  induction fuel with
  | zero => intro work finish h; omega
  | succ n ih =>
    intro work finish h
    rw [safeLoop, safeLoopFuel]
    split
    · rename_i hprog
      apply ih
      have := scanPass_countFalse_lt nd al (List.finRange P) work finish hprog
      omega
    · rfl

theorem countFalse_allFalse {P : Nat} :
    countFalse (fun _ : Fin P => false) = P := by
  simp [countFalse]

/-- Executable form of `isSafe`, with fuel `P + 1`. -/
def isSafeFuel {R P : Nat} (s : BankersAlgorithm R P) : Bool :=
  safeLoopFuel s.need s.allocation (P + 1) s.available (fun _ => false)

theorem isSafe_eval {R P : Nat} (s : BankersAlgorithm R P) :
    isSafe s = isSafeFuel s := by
  apply safeLoop_eq_fuel
  rw [countFalse_allFalse]
  omega

/-- The tentative commit inside `requestResources`:
`available[r] -= request[r]; allocation[process][r] += request[r];
need[process][r] -= request[r]`. -/
def tentativeGrant {R P : Nat} (s : BankersAlgorithm R P) (process : Fin P)
    (request : Fin R → Int) : BankersAlgorithm R P :=
  { s with
    available := fun r => s.available r - request r
    allocation := Function.update s.allocation process
      (fun r => s.allocation process r + request r)
    need := Function.update s.need process
      (fun r => s.need process r - request r) }

/-- The rollback inside `requestResources`:
`available[r] += request[r]; allocation[process][r] -= request[r];
need[process][r] += request[r]`. -/
def rollbackGrant {R P : Nat} (s : BankersAlgorithm R P) (process : Fin P)
    (request : Fin R → Int) : BankersAlgorithm R P :=
  { s with
    available := fun r => s.available r + request r
    allocation := Function.update s.allocation process
      (fun r => s.allocation process r - request r)
    need := Function.update s.need process
      (fun r => s.need process r + request r) }

/-- `requestResources(process, request)`: reject if `request[r] > need[process][r]`
for some `r`; reject if `request[r] > available[r]` for some `r`; otherwise
tentatively commit, check `isSafe()`, and either keep the commit (returning
`true`) or roll it back (returning `false`).  The `Bool` is the C++ return
value; the second component is the ledger state after the call. -/
def requestResources {R P : Nat} (s : BankersAlgorithm R P) (process : Fin P)
    (request : Fin R → Int) : Bool × BankersAlgorithm R P :=
  if vecLe request (s.need process) = false then (false, s)
  else if vecLe request s.available = false then (false, s)
  else if isSafe (tentativeGrant s process request) = true then
    (true, tentativeGrant s process request)
  else
    (false, rollbackGrant (tentativeGrant s process request) process request)

/-- `releaseResources(process, release)`: `allocation[process][r] -= release[r];
available[r] += release[r]; need[process][r] += release[r]`. -/
def releaseResources {R P : Nat} (s : BankersAlgorithm R P) (process : Fin P)
    (release : Fin R → Int) : BankersAlgorithm R P :=
  { s with
    allocation := Function.update s.allocation process
      (fun r => s.allocation process r - release r)
    available := fun r => s.available r + release r
    need := Function.update s.need process
      (fun r => s.need process r + release r) }

/-- The `isSafe` method viewed as a state transformer: it copies `available`
into the local `work`, initialises the local `finish`, runs the scan loop on
the locals, and returns its result together with the (untouched) ledger. -/
def isSafeMethod {R P : Nat} (s : BankersAlgorithm R P) :
    Bool × BankersAlgorithm R P :=
  let work := s.available
  let finish : Fin P → Bool := fun _ => false
  (safeLoop s.need s.allocation work finish, s)

/-- Ledger states reachable from the constructor by one `setTotalResources`
call followed by any finite sequence of `setMaximum`, `requestResources` and
`releaseResources` calls. -/
inductive Reachable (R P : Nat) : BankersAlgorithm R P → Prop where
  | init (total : Fin R → Int) :
      Reachable R P (setTotalResources (mkBankersAlgorithm R P) total)
  | setMax (s : BankersAlgorithm R P) (p : Fin P) (md : Fin R → Int) :
      Reachable R P s → Reachable R P (setMaximum s p md)
  | request (s : BankersAlgorithm R P) (p : Fin P) (req : Fin R → Int) :
      Reachable R P s → Reachable R P (requestResources s p req).2
  | release (s : BankersAlgorithm R P) (p : Fin P) (rel : Fin R → Int) :
      Reachable R P s → Reachable R P (releaseResources s p rel)

/-- A completion order is safe from `work` if each listed process in turn has
`need[p] ≤ work`, after which `work += allocation[p]`. -/
def seqSafe {R P : Nat} (nd al : Fin P → Fin R → Int) :
    (Fin R → Int) → List (Fin P) → Bool
  | _, [] => true
  | work, p :: ps => vecLe (nd p) work && seqSafe nd al (addV work (al p)) ps

/-- Work vector after simulating the completions in `ps`, in order. -/
def accum {R P : Nat} (al : Fin P → Fin R → Int) :
    (Fin R → Int) → List (Fin P) → (Fin R → Int)
  | work, [] => work
  | work, p :: ps => accum al (addV work (al p)) ps

theorem vecLe_iff {R : Nat} (a b : Fin R → Int) :
    vecLe a b = true ↔ ∀ r, a r ≤ b r := by
  simp [vecLe]

theorem vecLe_eq_false_iff {R : Nat} (a b : Fin R → Int) :
    vecLe a b = false ↔ ¬ ∀ r, a r ≤ b r := by
  rw [← vecLe_iff a b]
  cases vecLe a b <;> simp

theorem rollback_tentative {R P : Nat} (s : BankersAlgorithm R P)
    (p : Fin P) (req : Fin R → Int) :
    rollbackGrant (tentativeGrant s p req) p req = s := by
  cases s with
  | mk t av mx al nd =>
    simp only [rollbackGrant, tentativeGrant, BankersAlgorithm.mk.injEq]
    refine ⟨trivial, ?_, trivial, ?_, ?_⟩
    · funext r; ring
    · funext q r
      rcases eq_or_ne q p with h | h
      · subst h
        simp only [Function.update_same]
        ring
      · simp only [Function.update_noteq h]
    · funext q r
      rcases eq_or_ne q p with h | h
      · subst h
        simp only [Function.update_same]
        ring
      · simp only [Function.update_noteq h]

theorem release_tentative {R P : Nat} (s : BankersAlgorithm R P)
    (p : Fin P) (req : Fin R → Int) :
    releaseResources (tentativeGrant s p req) p req = s := by
  cases s with
  | mk t av mx al nd =>
    simp only [releaseResources, tentativeGrant, BankersAlgorithm.mk.injEq]
    refine ⟨trivial, ?_, trivial, ?_, ?_⟩
    · funext r; ring
    · funext q r
      rcases eq_or_ne q p with h | h
      · subst h
        simp only [Function.update_same]
        ring
      · simp only [Function.update_noteq h]
    · funext q r
      rcases eq_or_ne q p with h | h
      · subst h
        simp only [Function.update_same]
        ring
      · simp only [Function.update_noteq h]

theorem requestResources_true_snd {R P : Nat} (s : BankersAlgorithm R P)
    (p : Fin P) (req : Fin R → Int)
    (h : (requestResources s p req).1 = true) :
    (requestResources s p req).2 = tentativeGrant s p req := by
  unfold requestResources at h ⊢
  by_cases h1 : vecLe req (s.need p) = false
  · rw [if_pos h1] at h; exact absurd h (by simp)
  · rw [if_neg h1] at h ⊢
    by_cases h2 : vecLe req s.available = false
    · rw [if_pos h2] at h; exact absurd h (by simp)
    · rw [if_neg h2] at h ⊢
      by_cases h3 : isSafe (tentativeGrant s p req) = true
      · rw [if_pos h3]
      · rw [if_neg h3] at h; exact absurd h (by simp)

theorem requestResources_snd_cases {R P : Nat} (s : BankersAlgorithm R P)
    (p : Fin P) (req : Fin R → Int) :
    (requestResources s p req).2 = s ∨
      (requestResources s p req).2 = tentativeGrant s p req := by
  unfold requestResources
  by_cases h1 : vecLe req (s.need p) = false
  · rw [if_pos h1]; left; rfl
  · rw [if_neg h1]
    by_cases h2 : vecLe req s.available = false
    · rw [if_pos h2]; left; rfl
    · rw [if_neg h2]
      by_cases h3 : isSafe (tentativeGrant s p req) = true
      · rw [if_pos h3]; right; rfl
      · rw [if_neg h3]; left; exact rollback_tentative s p req

theorem sum_update_row {R P : Nat} (g : Fin P → Fin R → Int) (p : Fin P)
    (v : Fin R → Int) (r : Fin R) :
    ∑ q, Function.update g p v q r = (∑ q, g q r) - g p r + v r := by
  have hpt : ∀ q, Function.update g p v q r =
      Function.update (fun q => g q r) p (v r) q := by
    intro q
    rcases eq_or_ne q p with h | h
    · subst h; simp [Function.update_same]
    · simp [Function.update_noteq h]
  rw [Finset.sum_congr rfl (fun q _ => hpt q)]
  rw [Finset.sum_update_of_mem (Finset.mem_univ p)]
  have herase : ∑ q in Finset.univ \ {p}, g q r =
      (∑ q, g q r) - g p r := by
    rw [Finset.sum_sdiff_eq_sub (Finset.singleton_subset_iff.2 (Finset.mem_univ p))]
    simp
  rw [herase]
  ring

/-- C1: `requestResources(p, req)` returns `true` exactly when `req ≤ need[p]`,
`req ≤ available` componentwise and the tentatively committed state passes
`isSafe()`; and exactly when it returns `true`, the post-call state is that
tentatively committed state. -/
theorem requestResources_spec {R P : Nat} (s : BankersAlgorithm R P)
    (p : Fin P) (req : Fin R → Int) :
    ((requestResources s p req).1 = true ↔
      (∀ r, req r ≤ s.need p r) ∧ (∀ r, req r ≤ s.available r) ∧
        isSafe (tentativeGrant s p req) = true) ∧
    ((requestResources s p req).1 = true →
      (requestResources s p req).2 = tentativeGrant s p req) := by
  refine ⟨?_, requestResources_true_snd s p req⟩
  unfold requestResources
  by_cases h1 : vecLe req (s.need p) = false
  · rw [if_pos h1]
    rw [vecLe_eq_false_iff] at h1
    simp [h1]
  · rw [if_neg h1]
    have h1t : ∀ r, req r ≤ s.need p r := by
      cases h : vecLe req (s.need p)
      · exact absurd h h1
      · exact (vecLe_iff req (s.need p)).1 h
    by_cases h2 : vecLe req s.available = false
    · rw [if_pos h2]
      rw [vecLe_eq_false_iff] at h2
      simp [h2]
    · rw [if_neg h2]
      have h2t : ∀ r, req r ≤ s.available r := by
        cases h : vecLe req s.available
        · exact absurd h h2
        · exact (vecLe_iff req s.available).1 h
      by_cases h3 : isSafe (tentativeGrant s p req) = true
      · rw [if_pos h3]
        simp [h1t, h2t, h3]
      · rw [if_neg h3]
        simp [h3]

/-- C2: whenever `requestResources` returns `false` — request over declared
need, over availability, or unsafe tentative state — the ledger state after
the call is identical to the state before the call. -/
theorem requestResources_fail_frame {R P : Nat} (s : BankersAlgorithm R P)
    (p : Fin P) (req : Fin R → Int)
    (h : (requestResources s p req).1 = false) :
    (requestResources s p req).2 = s := by
  unfold requestResources at h ⊢
  by_cases h1 : vecLe req (s.need p) = false
  · rw [if_pos h1]
  · rw [if_neg h1] at h ⊢
    by_cases h2 : vecLe req s.available = false
    · rw [if_pos h2]
    · rw [if_neg h2] at h ⊢
      by_cases h3 : isSafe (tentativeGrant s p req) = true
      · rw [if_pos h3] at h; exact absurd h (by simp)
      · rw [if_neg h3]
        exact rollback_tentative s p req

/-- Witness for C2 at a concrete denied request: one role, one resource kind,
`need = 0` but `request = 1`, so the request is rejected and the state is
returned unchanged. -/
theorem requestResources_fail_frame_witness :
    (requestResources
      ({ total_resources := fun _ => 1, available := fun _ => 1,
         maximum := fun _ _ => 0, allocation := fun _ _ => 0,
         need := fun _ _ => 0 } : BankersAlgorithm 1 1)
      (0 : Fin 1) (fun _ => (1 : Int))).2 =
      ({ total_resources := fun _ => 1, available := fun _ => 1,
         maximum := fun _ _ => 0, allocation := fun _ _ => 0,
         need := fun _ _ => 0 } : BankersAlgorithm 1 1) :=
  requestResources_fail_frame _ _ _ (by decide)

/-- C3: after `setTotalResources` and any finite sequence of `setMaximum`,
`requestResources` and `releaseResources` calls, every resource kind satisfies
`available[r] + Σ_p allocation[p][r] = total_resources[r]`. -/
theorem conservation {R P : Nat} (s : BankersAlgorithm R P)
    (h : Reachable R P s) (r : Fin R) :
    s.available r + ∑ p, s.allocation p r = s.total_resources r := by
  induction h with
  | init total => simp [setTotalResources, mkBankersAlgorithm]
  | setMax s p md hs ih => simpa [setMaximum] using ih
  | request s p req hs ih =>
    rcases requestResources_snd_cases s p req with h | h
    · rw [h]; exact ih
    · rw [h]
      simp only [tentativeGrant]
      rw [sum_update_row]
      linarith [ih]
  | release s p rel hs ih =>
    simp only [releaseResources]
    rw [sum_update_row]
    linarith [ih]

/-- Witness for C3: the conservation identity at resource kind `0` of a
concrete reachable state (a grant performed after initialisation). -/
theorem conservation_witness :
    (requestResources (setMaximum (setTotalResources (mkBankersAlgorithm 2 2)
        (fun _ => (5 : Int))) 0 (fun _ => 3)) 0 (fun _ => 2)).2.available 0 +
      ∑ p, (requestResources (setMaximum (setTotalResources (mkBankersAlgorithm 2 2)
        (fun _ => (5 : Int))) 0 (fun _ => 3)) 0 (fun _ => 2)).2.allocation p 0 =
    (requestResources (setMaximum (setTotalResources (mkBankersAlgorithm 2 2)
        (fun _ => (5 : Int))) 0 (fun _ => 3)) 0 (fun _ => 2)).2.total_resources 0 :=
  conservation _ (Reachable.request _ _ _ (Reachable.setMax _ _ _ (Reachable.init _))) 0

/-- Counterexample for C5: with `allocation[0][0] = 2` and a new maximum
demand of `1 < 2`, `setMaximum` does not fail or abort — it commits the new
maximum anyway (and `need[0][0]` becomes `-1`). -/
theorem setMaximum_no_failure_check :
    (({ total_resources := fun _ => 2, available := fun _ => 0,
        maximum := fun _ _ => 2, allocation := fun _ _ => 2,
        need := fun _ _ => 0 } : BankersAlgorithm 1 1).allocation 0 0 > (1 : Int)) ∧
    (setMaximum
      ({ total_resources := fun _ => 2, available := fun _ => 0,
         maximum := fun _ _ => 2, allocation := fun _ _ => 2,
         need := fun _ _ => 0 } : BankersAlgorithm 1 1)
      0 (fun _ => 1)).maximum 0 0 = 1 ∧
    (setMaximum
      ({ total_resources := fun _ => 2, available := fun _ => 0,
         maximum := fun _ _ => 2, allocation := fun _ _ => 2,
         need := fun _ _ => 0 } : BankersAlgorithm 1 1)
      0 (fun _ => 1)).need 0 0 = -1 := by
  refine ⟨by norm_num, ?_, ?_⟩ <;> simp [setMaximum, Function.update_same]

/-- C5 as amended: `setMaximum` has no failure path.  Even when some
`allocation[p][r]` exceeds the new `maxDemand[r]` it unconditionally commits
`maximum[p] := maxDemand` and recomputes
`need[p][r] = maxDemand[r] - allocation[p][r]`, which is then negative. -/
theorem setMaximum_commits_unconditionally {R P : Nat} (s : BankersAlgorithm R P)
    (p : Fin P) (md : Fin R → Int) (r : Fin R)
    (h : md r < s.allocation p r) :
    (setMaximum s p md).maximum p = md ∧ (setMaximum s p md).need p r < 0 := by
  constructor
  · simp [setMaximum, Function.update_same]
  · simp only [setMaximum, Function.update_same]
    omega

/-- Witness for the amended C5 at the counterexample state. -/
theorem setMaximum_commits_unconditionally_witness :
    (setMaximum
      ({ total_resources := fun _ => 2, available := fun _ => 0,
         maximum := fun _ _ => 2, allocation := fun _ _ => 2,
         need := fun _ _ => 0 } : BankersAlgorithm 1 1)
      0 (fun _ => 1)).maximum 0 = (fun _ => 1) ∧
    (setMaximum
      ({ total_resources := fun _ => 2, available := fun _ => 0,
         maximum := fun _ _ => 2, allocation := fun _ _ => 2,
         need := fun _ _ => 0 } : BankersAlgorithm 1 1)
      0 (fun _ => 1)).need 0 0 < 0 :=
  setMaximum_commits_unconditionally _ 0 _ 0 (by norm_num)

/-- Number of executions of the `while (progress)` body of `isSafe` (scan
passes), defined by the same recursion as `safeLoop`. -/
def passCount {R P : Nat} (nd al : Fin P → Fin R → Int)
    (work : Fin R → Int) (finish : Fin P → Bool) : Nat :=
  if h : (scanPass nd al (List.finRange P) work finish).2.2 = true then
    passCount nd al (scanPass nd al (List.finRange P) work finish).1
      (scanPass nd al (List.finRange P) work finish).2.1 + 1
  else 1
termination_by countFalse finish
decreasing_by
  exact scanPass_countFalse_lt nd al (List.finRange P) work finish h

theorem passCount_le_aux {R P : Nat} (nd al : Fin P → Fin R → Int) :
    ∀ (n : Nat) (work : Fin R → Int) (finish : Fin P → Bool),
    countFalse finish < n →
    passCount nd al work finish ≤ countFalse finish + 1 := by
  intro n
  induction n with
  | zero => intro work finish h; omega
  | succ n ih =>
    intro work finish h
    rw [passCount]
    split
    · rename_i hprog
      have hlt := scanPass_countFalse_lt nd al (List.finRange P) work finish hprog
      have := ih (scanPass nd al (List.finRange P) work finish).1
        (scanPass nd al (List.finRange P) work finish).2.1 (by omega)
      omega
    · omega

/-- C6: the scan loop of `isSafe()` terminates; a pass that continues the loop
marks at least one previously unfinished role (`scanPass_prog_mark`), so the
loop body executes at most `num_processes + 1` times. -/
theorem isSafe_pass_bound {R P : Nat} (s : BankersAlgorithm R P) :
    passCount s.need s.allocation s.available (fun _ => false) ≤ P + 1 := by
  have := passCount_le_aux s.need s.allocation (P + 1) s.available
    (fun _ => false) (by rw [countFalse_allFalse]; omega)
  rw [countFalse_allFalse] at this
  exact this

/-- C8: a granted request immediately followed by a release of the same
vector restores the ledger state exactly. -/
theorem grant_release_roundtrip {R P : Nat} (s : BankersAlgorithm R P)
    (p : Fin P) (req : Fin R → Int)
    (h : (requestResources s p req).1 = true) :
    releaseResources (requestResources s p req).2 p req = s := by
  rw [requestResources_true_snd s p req h]
  exact release_tentative s p req

/-- Witness for C8: one role, one resource kind, a granted unit request
followed by the matching release returns to the initial configured state. -/
theorem grant_release_roundtrip_witness :
    releaseResources
      (requestResources
        ({ total_resources := fun _ => 1, available := fun _ => 1,
           maximum := fun _ _ => 1, allocation := fun _ _ => 0,
           need := fun _ _ => 1 } : BankersAlgorithm 1 1)
        (0 : Fin 1) (fun _ => (1 : Int))).2 (0 : Fin 1) (fun _ => (1 : Int)) =
      ({ total_resources := fun _ => 1, available := fun _ => 1,
         maximum := fun _ _ => 1, allocation := fun _ _ => 0,
         need := fun _ _ => 1 } : BankersAlgorithm 1 1) :=
  grant_release_roundtrip _ _ _ (by
    simp only [requestResources, isSafe_eval]
    decide)

/-- C10: `isSafe()` is read-only — viewed as a state transformer it returns
the ledger unchanged, and its Boolean result is exactly `isSafe`; the
simulation mutates only the local copies `work` and `finish`. -/
theorem isSafe_readonly {R P : Nat} (s : BankersAlgorithm R P) :
    (isSafeMethod s).2 = s ∧ (isSafeMethod s).1 = isSafe s :=
  ⟨rfl, rfl⟩

/-- C9: with totals `[2,1]`, role `P1` maximum `[2,1]` and role `P2` maximum
`[1,1]`, starting from zero allocations: `P1`'s request `[1,0]` is granted and
leaves `available = [1,1]`, and `P2`'s subsequent request `[1,1]` is also
granted (the tentative state with `available = [0,0]` is safe: `P2` finishes
first, returning its allocation so `P1` can finish). -/
theorem concrete_scenario :
    (requestResources
      (setMaximum (setMaximum (setTotalResources (mkBankersAlgorithm 2 2)
        ![2, 1]) 0 ![2, 1]) 1 ![1, 1]) 0 ![1, 0]).1 = true ∧
    (requestResources
      (setMaximum (setMaximum (setTotalResources (mkBankersAlgorithm 2 2)
        ![2, 1]) 0 ![2, 1]) 1 ![1, 1]) 0 ![1, 0]).2.available 0 = 1 ∧
    (requestResources
      (setMaximum (setMaximum (setTotalResources (mkBankersAlgorithm 2 2)
        ![2, 1]) 0 ![2, 1]) 1 ![1, 1]) 0 ![1, 0]).2.available 1 = 1 ∧
    (requestResources
      (requestResources
        (setMaximum (setMaximum (setTotalResources (mkBankersAlgorithm 2 2)
          ![2, 1]) 0 ![2, 1]) 1 ![1, 1]) 0 ![1, 0]).2 1 ![1, 1]).1 = true := by
  simp only [requestResources, isSafe_eval]
  decide

theorem seqSafe_append {R P : Nat} (nd al : Fin P → Fin R → Int) :
    ∀ (l m : List (Fin P)) (w : Fin R → Int),
    seqSafe nd al w (l ++ m) =
      (seqSafe nd al w l && seqSafe nd al (accum al w l) m) := by
  intro l
  induction l with
  | nil => intro m w; simp [seqSafe, accum]
  | cons p ps ih =>
    intro m w
    simp only [List.cons_append, seqSafe, accum, List.append_eq, ih, Bool.and_assoc]

theorem addV_right_comm {R : Nat} (w a b : Fin R → Int) :
    addV (addV w a) b = addV (addV w b) a := by
  funext r; simp only [addV]; ring

theorem accum_addV {R P : Nat} (al : Fin P → Fin R → Int) :
    ∀ (l : List (Fin P)) (w c : Fin R → Int),
    accum al (addV w c) l = addV (accum al w l) c := by
  intro l
  induction l with
  | nil => intro w c; rfl
  | cons p ps ih =>
    intro w c
    simp only [accum]
    rw [addV_right_comm w c (al p), ih]

theorem vecLe_addV_right {R : Nat} (a b c : Fin R → Int)
    (h : vecLe a b = true) (hc : ∀ r, 0 ≤ c r) :
    vecLe a (addV b c) = true := by
  rw [vecLe_iff] at h ⊢
  intro r
  have := h r
  have := hc r
  simp only [addV]
  omega

theorem vecLe_addV_both {R : Nat} (a b c : Fin R → Int)
    (h : vecLe a b = true) :
    vecLe (addV a c) (addV b c) = true := by
  rw [vecLe_iff] at h ⊢
  intro r
  have := h r
  simp only [addV]
  omega

theorem seqSafe_shift {R P : Nat} (nd al : Fin P → Fin R → Int)
    (c : Fin R → Int) (hc : ∀ r, 0 ≤ c r) :
    ∀ (m : List (Fin P)) (w : Fin R → Int),
    seqSafe nd al w m = true → seqSafe nd al (addV w c) m = true := by
  intro m
  induction m with
  | nil => intro w _; rfl
  | cons p ps ih =>
    intro w h
    simp only [seqSafe, Bool.and_eq_true] at h ⊢
    refine ⟨vecLe_addV_right _ _ _ h.1 hc, ?_⟩
    rw [addV_right_comm w c (al p)]
    exact ih _ h.2

theorem seqSafe_exchange {R P : Nat} (nd al : Fin P → Fin R → Int)
    (x : Fin P) (hc : ∀ r, 0 ≤ al x r) (m : List (Fin P)) (w : Fin R → Int)
    (hx : x ∈ m) (hs : seqSafe nd al w m = true) :
    seqSafe nd al (addV w (al x)) (m.erase x) = true := by
  obtain ⟨l, rtl, hnl, hm, herase⟩ := List.exists_erase_eq hx
  rw [herase]
  rw [hm] at hs
  rw [seqSafe_append, Bool.and_eq_true] at hs
  obtain ⟨hl, hrest⟩ := hs
  simp only [seqSafe, Bool.and_eq_true] at hrest
  obtain ⟨hxle, hrtl⟩ := hrest
  rw [seqSafe_append, Bool.and_eq_true]
  refine ⟨seqSafe_shift nd al (al x) hc l w hl, ?_⟩
  rw [accum_addV]
  exact hrtl

theorem seqSafe_exchange_many {R P : Nat} (nd al : Fin P → Fin R → Int)
    (hal : ∀ q r, 0 ≤ al q r) :
    ∀ (mks m : List (Fin P)) (w : Fin R → Int),
    mks.Nodup → (∀ q ∈ mks, q ∈ m) → seqSafe nd al w m = true →
    seqSafe nd al (accum al w mks) (m.diff mks) = true := by
  intro mks
  induction mks with
  | nil =>
    intro m w _ _ hs
    rw [List.diff_nil]
    exact hs
  | cons x mks ih =>
    intro m w hnd hsub hs
    rw [List.diff_cons]
    simp only [accum]
    apply ih (m.erase x) (addV w (al x)) (List.Nodup.of_cons hnd)
    · intro q hq
      have hqx : q ≠ x := by
        rintro rfl
        exact (List.nodup_cons.1 hnd).1 hq
      exact (List.mem_erase_of_ne hqx).2 (hsub q (List.mem_cons_of_mem x hq))
    · exact seqSafe_exchange nd al x (hal x) m w (hsub x (List.mem_cons_self x mks)) hs

theorem seqSafe_congr {R P : Nat} (nd1 nd2 al1 al2 : Fin P → Fin R → Int) :
    ∀ (m : List (Fin P)) (w : Fin R → Int),
    (∀ q ∈ m, nd1 q = nd2 q) → (∀ q ∈ m, al1 q = al2 q) →
    seqSafe nd1 al1 w m = seqSafe nd2 al2 w m := by
  intro m
  induction m with
  | nil => intro w _ _; rfl
  | cons p ps ih =>
    intro w hnd hal
    simp only [seqSafe]
    rw [hnd p (List.mem_cons_self p ps), hal p (List.mem_cons_self p ps)]
    rw [ih _ (fun q hq => hnd q (List.mem_cons_of_mem p hq))
      (fun q hq => hal q (List.mem_cons_of_mem p hq))]

theorem accum_congr {R P : Nat} (al1 al2 : Fin P → Fin R → Int) :
    ∀ (m : List (Fin P)) (w : Fin R → Int),
    (∀ q ∈ m, al1 q = al2 q) → accum al1 w m = accum al2 w m := by
  intro m
  induction m with
  | nil => intro w _; rfl
  | cons p ps ih =>
    intro w hal
    simp only [accum]
    rw [hal p (List.mem_cons_self p ps)]
    exact ih _ (fun q hq => hal q (List.mem_cons_of_mem p hq))

theorem scanPass_marks {R P : Nat} (nd al : Fin P → Fin R → Int) :
    ∀ (ps : List (Fin P)) (w : Fin R → Int) (fin : Fin P → Bool),
    ∃ mks : List (Fin P),
      mks.Nodup ∧
      (∀ q ∈ mks, q ∈ ps ∧ fin q = false) ∧
      seqSafe nd al w mks = true ∧
      (scanPass nd al ps w fin).1 = accum al w mks ∧
      (∀ q, (scanPass nd al ps w fin).2.1 q = (fin q || decide (q ∈ mks))) ∧
      ((scanPass nd al ps w fin).2.2 = true ↔ mks ≠ []) := by
  intro ps
  induction ps with
  | nil =>
    intro w fin
    refine ⟨[], List.nodup_nil, ?_, rfl, rfl, ?_, ?_⟩
    · intro q hq; exact absurd hq (List.not_mem_nil q)
    · intro q; simp [scanPass]
    · simp [scanPass]
  | cons p ps ih =>
    intro w fin
    by_cases hcond : fin p = false ∧ vecLe (nd p) w = true
    · obtain ⟨mks, hnd, hmem, hseq, hwork, hfin, hprog⟩ :=
        ih (addV w (al p)) (Function.update fin p true)
      have hpnot : p ∉ mks := by
        intro hp
        have := (hmem p hp).2
        rw [Function.update_same] at this
        exact Bool.noConfusion this
      refine ⟨p :: mks, List.nodup_cons.2 ⟨hpnot, hnd⟩, ?_, ?_, ?_, ?_, ?_⟩
      · intro q hq
        rcases List.mem_cons.1 hq with h | h
        · subst h
          exact ⟨List.mem_cons_self _ _, hcond.1⟩
        · obtain ⟨hq1, hq2⟩ := hmem q h
          have hqp : q ≠ p := by
            rintro rfl
            rw [Function.update_same] at hq2
            exact Bool.noConfusion hq2
          rw [Function.update_noteq hqp] at hq2
          exact ⟨List.mem_cons_of_mem p hq1, hq2⟩
      · simp only [seqSafe, Bool.and_eq_true]
        exact ⟨hcond.2, hseq⟩
      · simp only [scanPass, if_pos hcond]
        exact hwork
      · intro q
        have hstep : (scanPass nd al (p :: ps) w fin).2.1 q =
            (scanPass nd al ps (addV w (al p)) (Function.update fin p true)).2.1 q := by
          simp only [scanPass, if_pos hcond]
        rw [hstep, hfin q]
        rcases eq_or_ne q p with h | h
        · subst h
          simp [Function.update_same, hcond.1]
        · rw [Function.update_noteq h]
          simp [List.mem_cons, h]
      · constructor
        · intro _
          exact List.cons_ne_nil p mks
        · intro _
          show (scanPass nd al (p :: ps) w fin).2.2 = true
          simp only [scanPass, if_pos hcond]
    · obtain ⟨mks, hnd, hmem, hseq, hwork, hfin, hprog⟩ := ih w fin
      refine ⟨mks, hnd, ?_, hseq, ?_, ?_, ?_⟩
      · intro q hq
        obtain ⟨hq1, hq2⟩ := hmem q hq
        exact ⟨List.mem_cons_of_mem p hq1, hq2⟩
      · simp only [scanPass, if_neg hcond]
        exact hwork
      · intro q
        simp only [scanPass, if_neg hcond]
        exact hfin q
      · simp only [scanPass, if_neg hcond]
        exact hprog

theorem scanPass_stuck {R P : Nat} (nd al : Fin P → Fin R → Int) :
    ∀ (ps : List (Fin P)) (w : Fin R → Int) (fin : Fin P → Bool),
    (scanPass nd al ps w fin).2.2 = false →
    ∀ q ∈ ps, fin q = false → vecLe (nd q) w = false := by
  intro ps
  induction ps with
  | nil => intro w fin _ q hq; exact absurd hq (List.not_mem_nil q)
  | cons p ps ih =>
    intro w fin hprog q hq hfq
    by_cases hcond : fin p = false ∧ vecLe (nd p) w = true
    · rw [show (scanPass nd al (p :: ps) w fin).2.2 =
          true from by simp only [scanPass, if_pos hcond]] at hprog
      exact Bool.noConfusion hprog
    · rw [show scanPass nd al (p :: ps) w fin =
          scanPass nd al ps w fin from by simp only [scanPass, if_neg hcond]] at hprog
      rcases List.mem_cons.1 hq with h | h
      · subst h
        cases hv : vecLe (nd q) w
        · rfl
        · exact absurd ⟨hfq, hv⟩ hcond
      · exact ih w fin hprog q h hfq

theorem safeLoop_sound {R P : Nat} (nd al : Fin P → Fin R → Int) :
    ∀ (n : Nat) (w : Fin R → Int) (fin : Fin P → Bool), countFalse fin < n →
    safeLoop nd al w fin = true →
    ∃ m : List (Fin P), m.Nodup ∧ (∀ q, q ∈ m ↔ fin q = false) ∧
      seqSafe nd al w m = true := by
  intro n
  induction n with
  | zero => intro w fin h; omega
  | succ n ih =>
    intro w fin hcf hsafe
    obtain ⟨mks, hnd, hmemk, hseqk, hwork, hfin, hprog⟩ :=
      scanPass_marks nd al (List.finRange P) w fin
    rw [safeLoop] at hsafe
    split at hsafe
    · rename_i hp
      have hlt := scanPass_countFalse_lt nd al (List.finRange P) w fin hp
      obtain ⟨m2, hnd2, hmem2, hseq2⟩ := ih _ _ (by omega) hsafe
      refine ⟨mks ++ m2, ?_, ?_, ?_⟩
      · apply hnd.append hnd2
        intro q hq1 hq2
        have h2 := (hmem2 q).1 hq2
        rw [hfin q] at h2
        simp only [Bool.or_eq_false_iff, decide_eq_false_iff_not] at h2
        exact h2.2 hq1
      · intro q
        rw [List.mem_append]
        constructor
        · rintro (h | h)
          · exact (hmemk q h).2
          · have := (hmem2 q).1 h
            rw [hfin q] at this
            simp only [Bool.or_eq_false_iff] at this
            exact this.1
        · intro hq
          by_cases hqm : q ∈ mks
          · exact Or.inl hqm
          · right
            apply (hmem2 q).2
            rw [hfin q]
            simp [hq, hqm]
      · rw [seqSafe_append, Bool.and_eq_true]
        refine ⟨hseqk, ?_⟩
        rw [← hwork]
        exact hseq2
    · rename_i hp
      have hmks : mks = [] := by
        by_contra hne
        exact hp (hprog.2 hne)
      refine ⟨[], List.nodup_nil, ?_, rfl⟩
      intro q
      simp only [List.not_mem_nil, false_iff]
      have hq := of_decide_eq_true hsafe q
      rw [hfin q, hmks] at hq
      simp only [List.not_mem_nil, decide_False, Bool.or_false] at hq
      simp [hq]

theorem safeLoop_complete {R P : Nat} (nd al : Fin P → Fin R → Int)
    (hal : ∀ q r, 0 ≤ al q r) :
    ∀ (n : Nat) (w : Fin R → Int) (fin : Fin P → Bool) (m : List (Fin P)),
    countFalse fin < n → m.Nodup → (∀ q, q ∈ m ↔ fin q = false) →
    seqSafe nd al w m = true → safeLoop nd al w fin = true := by
  intro n
  induction n with
  | zero => intro w fin m h; omega
  | succ n ih =>
    intro w fin m hcf hmnd hmem hseq
    obtain ⟨mks, hnd, hmemk, hseqk, hwork, hfin, hprog⟩ :=
      scanPass_marks nd al (List.finRange P) w fin
    rw [safeLoop]
    split
    · rename_i hp
      have hlt := scanPass_countFalse_lt nd al (List.finRange P) w fin hp
      apply ih _ _ (m.diff mks) (by omega) hmnd.diff
      · intro q
        rw [hmnd.mem_diff_iff, hfin q]
        simp only [Bool.or_eq_false_iff, decide_eq_false_iff_not]
        rw [hmem q]
      · rw [hwork]
        apply seqSafe_exchange_many nd al hal mks m w hnd ?_ hseq
        intro q hq
        exact (hmem q).2 (hmemk q hq).2
    · rename_i hp
      have hmks : mks = [] := by
        by_contra hne
        exact hp (hprog.2 hne)
      have hpf : (scanPass nd al (List.finRange P) w fin).2.2 = false := by
        cases hv : (scanPass nd al (List.finRange P) w fin).2.2
        · rfl
        · exact absurd hv hp
      have hstuck := scanPass_stuck nd al (List.finRange P) w fin hpf
      apply decide_eq_true
      intro q
      rw [hfin q, hmks]
      simp only [List.not_mem_nil, decide_False, Bool.or_false]
      cases hm : m with
      | nil =>
        have : ¬ q ∈ m := by
          rw [hm]
          exact List.not_mem_nil q
        have hfq : ¬ fin q = false := fun hf => this ((hmem q).2 hf)
        cases hv : fin q
        · exact absurd hv hfq
        · rfl
      | cons x m2 =>
        exfalso
        rw [hm] at hseq
        simp only [seqSafe, Bool.and_eq_true] at hseq
        have hx : fin x = false := (hmem x).1 (hm ▸ List.mem_cons_self x m2)
        have := hstuck x (List.mem_finRange x) hx
        rw [hseq.1] at this
        exact Bool.noConfusion this

/-- C4: for ledgers with non-negative `need` and `allocation`, `isSafe()`
returns `true` exactly when some ordering (permutation) of all roles lets each
role in turn satisfy `need[p] ≤ work` where `work` starts at `available` and
grows by `allocation[p]` as each role completes. -/
theorem isSafe_iff_exists_safe_order {R P : Nat} (s : BankersAlgorithm R P)
    (hnd : ∀ p r, 0 ≤ s.need p r) (hal : ∀ p r, 0 ≤ s.allocation p r) :
    isSafe s = true ↔
      ∃ order : List (Fin P), order.Perm (List.finRange P) ∧
        seqSafe s.need s.allocation s.available order = true := by
  constructor
  · intro h
    simp only [isSafe] at h
    obtain ⟨m, hmnd, hmem, hseq⟩ := safeLoop_sound s.need s.allocation (P + 1)
      s.available (fun _ => false) (by rw [countFalse_allFalse]; omega) h
    refine ⟨m, ?_, hseq⟩
    rw [List.perm_ext_iff_of_nodup hmnd (List.nodup_finRange P)]
    intro q
    simp only [List.mem_finRange, iff_true]
    exact (hmem q).2 rfl
  · rintro ⟨order, hperm, hseq⟩
    simp only [isSafe]
    apply safeLoop_complete s.need s.allocation hal (P + 1) s.available
      (fun _ => false) order (by rw [countFalse_allFalse]; omega)
      (hperm.nodup_iff.2 (List.nodup_finRange P)) ?_ hseq
    intro q
    simp [hperm.mem_iff, List.mem_finRange]

/-- Concrete two-role, two-resource-kind ledger used to witness C4: totals
`[2,1]`, role 0 holds `[1,0]` of its maximum `[2,1]`, role 1 holds nothing of
its maximum `[1,1]`. -/
def safeOrderLedger : BankersAlgorithm 2 2 :=
  { total_resources := ![2, 1], available := ![1, 1],
    maximum := ![![2, 1], ![1, 1]], allocation := ![![1, 0], ![0, 0]],
    need := ![![1, 1], ![1, 1]] }

/-- Witness for C4 at `safeOrderLedger`. -/
theorem isSafe_iff_exists_safe_order_witness :
    isSafe safeOrderLedger = true ↔
      ∃ order : List (Fin 2), order.Perm (List.finRange 2) ∧
        seqSafe safeOrderLedger.need safeOrderLedger.allocation
          safeOrderLedger.available order = true :=
  isSafe_iff_exists_safe_order safeOrderLedger (by decide) (by decide)

/-- C7 as amended: releasing resources preserves safety on ledgers whose
allocations are all non-negative.  If the ledger is safe, every
`allocation[q][r]` is non-negative, and `0 ≤ rel[r] ≤ allocation[p][r]` for
every `r`, then the ledger is still safe after `releaseResources(p, rel)`.
(Without the non-negativity hypothesis the claim fails — see
`release_unsafe_counterexample`.) -/
theorem release_preserves_safety {R P : Nat} (s : BankersAlgorithm R P)
    (p : Fin P) (rel : Fin R → Int)
    (hal : ∀ q r, 0 ≤ s.allocation q r)
    (hrel0 : ∀ r, 0 ≤ rel r)
    (hrel1 : ∀ r, rel r ≤ s.allocation p r)
    (hsafe : isSafe s = true) :
    isSafe (releaseResources s p rel) = true := by
  simp only [isSafe] at hsafe ⊢
  obtain ⟨m, hmnd, hmem, hseq⟩ := safeLoop_sound s.need s.allocation (P + 1)
    s.available (fun _ => false) (by rw [countFalse_allFalse]; omega) hsafe
  have hpm : p ∈ m := (hmem p).2 rfl
  obtain ⟨l, rtl, hnl, hm, -⟩ := List.exists_erase_eq hpm
  have hndlr : (l ++ p :: rtl).Nodup := hm ▸ hmnd
  have hprtl : p ∉ rtl := by
    have h2 := (List.nodup_cons.1 (List.Nodup.of_append_right hndlr)).1
    exact h2
  have hlne : ∀ q ∈ l, q ≠ p := fun q hq hqp => hnl (hqp ▸ hq)
  have hrtlne : ∀ q ∈ rtl, q ≠ p := fun q hq hqp => hprtl (hqp ▸ hq)
  rw [hm] at hseq
  rw [seqSafe_append, Bool.and_eq_true] at hseq
  obtain ⟨hl, hrest⟩ := hseq
  simp only [seqSafe, Bool.and_eq_true] at hrest
  obtain ⟨hple, hrtl2⟩ := hrest
  show safeLoop (Function.update s.need p fun r => s.need p r + rel r)
      (Function.update s.allocation p fun r => s.allocation p r - rel r)
      (fun r => s.available r + rel r) (fun _ => false) = true
  apply safeLoop_complete _ _ ?_ (P + 1) _ _ (l ++ p :: rtl)
    (by rw [countFalse_allFalse]; omega) hndlr ?_ ?_
  · intro q r
    rcases eq_or_ne q p with h | h
    · subst h
      rw [Function.update_same]
      have := hrel1 r
      omega
    · rw [Function.update_noteq h]
      exact hal q r
  · intro q
    rw [← hm]
    exact hmem q
  · show seqSafe (Function.update s.need p fun r => s.need p r + rel r)
        (Function.update s.allocation p fun r => s.allocation p r - rel r)
        (addV s.available rel) (l ++ p :: rtl) = true
    rw [seqSafe_append, Bool.and_eq_true]
    have hcongr_nd : ∀ q ∈ l,
        Function.update s.need p (fun r => s.need p r + rel r) q = s.need q :=
      fun q hq => Function.update_noteq (hlne q hq) _ _
    have hcongr_al : ∀ q ∈ l,
        Function.update s.allocation p (fun r => s.allocation p r - rel r) q =
          s.allocation q :=
      fun q hq => Function.update_noteq (hlne q hq) _ _
    constructor
    · rw [seqSafe_congr _ s.need _ s.allocation l _ hcongr_nd hcongr_al]
      exact seqSafe_shift s.need s.allocation rel hrel0 l s.available hl
    · have haccum : accum
          (Function.update s.allocation p fun r => s.allocation p r - rel r)
          (addV s.available rel) l =
          addV (accum s.allocation s.available l) rel := by
        rw [accum_congr _ s.allocation l _ hcongr_al]
        exact accum_addV s.allocation l s.available rel
      rw [haccum]
      simp only [seqSafe, Bool.and_eq_true]
      constructor
      · rw [Function.update_same]
        exact vecLe_addV_both (s.need p) (accum s.allocation s.available l) rel hple
      · rw [Function.update_same]
        have hwork2 : addV (addV (accum s.allocation s.available l) rel)
            (fun r => s.allocation p r - rel r) =
            addV (accum s.allocation s.available l) (s.allocation p) := by
          funext r
          simp only [addV]
          ring
        rw [hwork2]
        have hcongr_nd2 : ∀ q ∈ rtl,
            Function.update s.need p (fun r => s.need p r + rel r) q = s.need q :=
          fun q hq => Function.update_noteq (hrtlne q hq) _ _
        have hcongr_al2 : ∀ q ∈ rtl,
            Function.update s.allocation p (fun r => s.allocation p r - rel r) q =
              s.allocation q :=
          fun q hq => Function.update_noteq (hrtlne q hq) _ _
        rw [seqSafe_congr _ s.need _ s.allocation rtl _ hcongr_nd2 hcongr_al2]
        exact hrtl2

/-- Witness for C7: a safe one-role ledger holding one unit releases that
unit and remains safe. -/
theorem release_preserves_safety_witness :
    isSafe (releaseResources
      ({ total_resources := fun _ => 1, available := fun _ => 0,
         maximum := fun _ _ => 1, allocation := fun _ _ => 1,
         need := fun _ _ => 0 } : BankersAlgorithm 1 1)
      (0 : Fin 1) (fun _ => (1 : Int))) = true :=
  release_preserves_safety _ 0 _ (by decide) (by decide) (by decide)
    (by rw [isSafe_eval]; decide)

/-- Witness for C1 at a concrete input: a one-role ledger where the unit
request satisfies all three conditions. -/
theorem requestResources_spec_witness :
    ((requestResources
      ({ total_resources := fun _ => 1, available := fun _ => 1,
         maximum := fun _ _ => 1, allocation := fun _ _ => 0,
         need := fun _ _ => 1 } : BankersAlgorithm 1 1)
      (0 : Fin 1) (fun _ => (1 : Int))).1 = true ↔
      (∀ r, (fun _ => (1 : Int)) r ≤
        ({ total_resources := fun _ => 1, available := fun _ => 1,
           maximum := fun _ _ => 1, allocation := fun _ _ => 0,
           need := fun _ _ => 1 } : BankersAlgorithm 1 1).need 0 r) ∧
      (∀ r, (fun _ => (1 : Int)) r ≤
        ({ total_resources := fun _ => 1, available := fun _ => 1,
           maximum := fun _ _ => 1, allocation := fun _ _ => 0,
           need := fun _ _ => 1 } : BankersAlgorithm 1 1).available r) ∧
      isSafe (tentativeGrant
        ({ total_resources := fun _ => 1, available := fun _ => 1,
           maximum := fun _ _ => 1, allocation := fun _ _ => 0,
           need := fun _ _ => 1 } : BankersAlgorithm 1 1)
        (0 : Fin 1) (fun _ => (1 : Int))) = true) ∧
    ((requestResources
      ({ total_resources := fun _ => 1, available := fun _ => 1,
         maximum := fun _ _ => 1, allocation := fun _ _ => 0,
         need := fun _ _ => 1 } : BankersAlgorithm 1 1)
      (0 : Fin 1) (fun _ => (1 : Int))).1 = true →
      (requestResources
        ({ total_resources := fun _ => 1, available := fun _ => 1,
           maximum := fun _ _ => 1, allocation := fun _ _ => 0,
           need := fun _ _ => 1 } : BankersAlgorithm 1 1)
        (0 : Fin 1) (fun _ => (1 : Int))).2 = tentativeGrant
        ({ total_resources := fun _ => 1, available := fun _ => 1,
           maximum := fun _ _ => 1, allocation := fun _ _ => 0,
           need := fun _ _ => 1 } : BankersAlgorithm 1 1)
        (0 : Fin 1) (fun _ => (1 : Int))) :=
  requestResources_spec _ _ _

/-- Counterexample for C7 as originally stated (without non-negative
allocations): role 0 has allocation `-5` and need `1`, role 1 has allocation
`5` and need `0`, available is `0`.  The ledger is safe (role 1 finishes,
then role 0), and releasing `rel = [1]` from role 1 satisfies
`0 ≤ rel[r] ≤ allocation[1][r]`, yet the resulting ledger fails `isSafe()`:
the scan now finishes role 0 first, its negative allocation drags `work`
to `-4`, and role 1 can no longer finish. -/
theorem release_unsafe_counterexample :
    isSafe
      ({ total_resources := fun _ => 0, available := fun _ => 0,
         maximum := ![![-4], ![5]], allocation := ![![-5], ![5]],
         need := ![![1], ![0]] } : BankersAlgorithm 1 2) = true ∧
    (∀ r : Fin 1, 0 ≤ (fun _ => (1 : Int)) r) ∧
    (∀ r, (fun _ => (1 : Int)) r ≤
      ({ total_resources := fun _ => 0, available := fun _ => 0,
         maximum := ![![-4], ![5]], allocation := ![![-5], ![5]],
         need := ![![1], ![0]] } : BankersAlgorithm 1 2).allocation 1 r) ∧
    isSafe (releaseResources
      ({ total_resources := fun _ => 0, available := fun _ => 0,
         maximum := ![![-4], ![5]], allocation := ![![-5], ![5]],
         need := ![![1], ![0]] } : BankersAlgorithm 1 2)
      (1 : Fin 2) (fun _ => (1 : Int))) = false := by
  simp only [isSafe_eval]
  decide
